import Mathlib

/-!
Verification of the response-to-structured-table parser of
`src/app.py` (class `TikTokAnalyzer`): `clean_text`,
`create_analysis_table` with its inner `find_category`, and an abstract
state model of the temporary-file lifecycle of `analyze_video` /
`try_s3_download` / `download_direct_video`.

Strings are modelled as `List Char`.  Python string operations used by
the source (`strip`, `split`, `split('\n')`, `replace`, `in`,
`startswith`, `lower`, and the three regular expressions
`\[.*?\]`, `^(?:i[vx]|v|x|i{1,3})\)`, `^[ivxIVX]+\)`, `^[a-zA-Z]\)`,
`^\s*[\*\-•]\s*`) are given executable Lean counterparts.
-/

namespace VideoAnalysis

abbrev Str := List Char

/-- Python whitespace characters (`str.split()` / `str.strip()` with no
argument split on these). -/
def isPySpace (c : Char) : Bool :=
  c == ' ' || c == '\t' || c == '\n' || c == '\r' || c == '\x0b' || c == '\x0c'

/-- Python `str.strip()`: remove whitespace from both ends. -/
def pystrip (l : Str) : Str :=
  ((l.dropWhile isPySpace).reverse.dropWhile isPySpace).reverse

/-- Python `str.split()` with no argument: split on whitespace runs,
dropping empty pieces. -/
def pysplit : Str → List Str
  | [] => []
  | [c] => if isPySpace c then [] else [[c]]
  | c :: d :: rest =>
    if isPySpace c then pysplit (d :: rest)
    else if isPySpace d then [c] :: pysplit rest
    else match pysplit (d :: rest) with
      | [] => [[c]]
      | w :: ws => (c :: w) :: ws

/-- Python `' '.join(ws)`. -/
def joinSp : List Str → Str
  | [] => []
  | [w] => w
  | w :: ws => w ++ ' ' :: joinSp ws

/-- Python `', '.join(ws)`. -/
def joinComma : List Str → Str
  | [] => []
  | [w] => w
  | w :: ws => w ++ ',' :: ' ' :: joinComma ws

/-- Python `text.split('\n')`: split at every newline, keeping empty
pieces (`''.split('\n') = ['']`). -/
def splitOnNl : Str → List Str
  | [] => [[]]
  | c :: rest =>
    if c = '\n' then [] :: splitOnNl rest
    else match splitOnNl rest with
      | [] => [[c]]
      | w :: ws => (c :: w) :: ws

/-- Scan for the closing `]` of a `re.sub(r'\[.*?\]', ...)` match: the
first `]`, failing if a newline comes first (`.` does not match `\n`).
Returns the remainder after the `]` on success. -/
def findClose : Str → Option Str
  | [] => none
  | c :: rest =>
    if c = ']' then some rest
    else if c = '\n' then none
    else findClose rest

/-- Fuelled worker for `re.sub(r'\[.*?\]', '', text)`: left-to-right,
non-overlapping, non-greedy removal of bracketed spans. -/
def removeBracketsF : Nat → Str → Str
  | _, [] => []
  | 0, l => l
  | f + 1, c :: rest =>
    if c = '[' then
      match findClose rest with
      | some rest2 => removeBracketsF f rest2
      | none => '[' :: removeBracketsF f rest
    else c :: removeBracketsF f rest

/-- Python `re.sub(r'\[.*?\]', '', text)`. -/
def removeBrackets (l : Str) : Str := removeBracketsF l.length l

/-- Fuelled worker for Python `text.replace(pat, '')`: left-to-right,
non-overlapping removal of every occurrence of `pat`. -/
def replaceAllF (pat : Str) : Nat → Str → Str
  | _, [] => []
  | 0, l => l
  | f + 1, c :: rest =>
    if !pat.isEmpty && pat.isPrefixOf (c :: rest) then
      replaceAllF pat f ((c :: rest).drop pat.length)
    else c :: replaceAllF pat f rest

/-- Python `text.replace(pat, '')` (for non-empty `pat`). -/
def replaceAll (pat l : Str) : Str := replaceAllF pat l.length l

/-- Python `text.replace('**', '')`: remove non-overlapping `**` pairs
left to right. -/
def replaceStarStar : Str → Str
  | [] => []
  | [c] => [c]
  | c :: d :: rest =>
    if c = '*' ∧ d = '*' then replaceStarStar rest
    else c :: replaceStarStar (d :: rest)

/-- Python `str.lower()` (ASCII case folding, as used by the source's
all-ASCII heading phrases). -/
def lowerStr (l : Str) : Str := l.map Char.toLower

/-- Python substring test `needle in hay`. -/
def containsSub (needle : Str) : Str → Bool
  | [] => needle.isEmpty
  | c :: rest => needle.isPrefixOf (c :: rest) || containsSub needle rest

/-- `TikTokAnalyzer.clean_text` (src/app.py lines 849-856):
remove `*`, strip bracketed asides, collapse whitespace runs, trim. -/
def clean_text (text : Str) : Str :=
  if text = [] then []
  else pystrip (joinSp (pysplit (removeBrackets (replaceAll ['*'] text))))

/-- The fixed ordered category list of `create_analysis_table`. -/
def categories : List Str :=
  ["Video Summary".toList, "Content Theme".toList, "Content Style".toList,
   "Creator Presence".toList, "Key Video Elements".toList,
   "On-Screen Text/Graphics".toList, "Spoken Words".toList,
   "Technical Elements".toList, "Auditory Elements".toList,
   "Language".toList, "Sentiment/Tone/Vibe".toList, "Video Length".toList,
   "Brand Safety".toList, "Brands Featured".toList, "Target Audience".toList,
   "Location".toList]

/-- `category_mapping` of `create_analysis_table`: lowercase heading
phrase to category, in the source's insertion order. -/
def category_mapping : List (Str × Str) :=
  [("brief video summary".toList, "Video Summary".toList),
   ("content theme".toList, "Content Theme".toList),
   ("content style".toList, "Content Style".toList),
   ("creator presence".toList, "Creator Presence".toList),
   ("key video elements".toList, "Key Video Elements".toList),
   ("on-screen text/graphics".toList, "On-Screen Text/Graphics".toList),
   ("spoken words".toList, "Spoken Words".toList),
   ("technical elements".toList, "Technical Elements".toList),
   ("auditory elements".toList, "Auditory Elements".toList),
   ("language".toList, "Language".toList),
   ("sentiment/tone/vibe".toList, "Sentiment/Tone/Vibe".toList),
   ("video length".toList, "Video Length".toList),
   ("brand safety".toList, "Brand Safety".toList),
   ("brands featured".toList, "Brands Featured".toList),
   ("target audience".toList, "Target Audience".toList),
   ("location".toList, "Location".toList)]

/-- The strings matched by `re.match(r'^(?:i[vx]|v|x|i{1,3})\)', _)`:
the regex matches exactly when the string starts with one of these. -/
def romanTokens : List Str :=
  ["i)".toList, "ii)".toList, "iii)".toList, "iv)".toList, "ix)".toList,
   "v)".toList, "x)".toList]

/-- `re.match(r'^(?:i[vx]|v|x|i{1,3})\)', l)` as a Boolean test. -/
def hasRomanMarker (l : Str) : Bool :=
  romanTokens.any (fun p => p.isPrefixOf l)

/-- Python `l.split(')', 1)[1]`: everything after the first `)`. -/
def afterParen (l : Str) : Str :=
  (l.dropWhile (fun c => !(c == ')'))).tail

/-- Python `l.split(':', 1)[1]`: everything after the first `:`. -/
def afterColon (l : Str) : Str :=
  (l.dropWhile (fun c => !(c == ':'))).tail

/-- The list-marker stripping at the start of `find_category`
(src/app.py lines 919-926): drop a roman-numeral token followed by `)`
(checked on the lowercased line), then a literal `a)` or `b)`. -/
def stripListMarker (line : Str) : Str :=
  let l1 := if hasRomanMarker (lowerStr line) then pystrip (afterParen line)
            else line
  if "a)".toList.isPrefixOf l1 || "b)".toList.isPrefixOf l1 then
    pystrip (afterParen l1)
  else l1

/-- `find_category` inside `create_analysis_table` (src/app.py lines
918-932): after marker stripping, the first mapping entry whose phrase
occurs anywhere in the lowercased line wins; the text after the first
`:` (if any) is the initial buffered content. -/
def find_category (line : Str) : Option (Str × Str) :=
  let l2 := stripListMarker line
  match category_mapping.find? (fun kc => containsSub kc.1 (lowerStr l2)) with
  | some kc =>
    some (kc.2, if l2.contains ':' then pystrip (afterColon l2) else [])
  | none => none

/-- `re.sub(r'^\s*[\*\-•]\s*', '', line)`: strip one leading bullet
marker and surrounding whitespace; if no bullet is present the line is
returned unchanged. -/
def stripBullet (line : Str) : Str :=
  match line.dropWhile isPySpace with
  | c :: rest =>
    if c == '*' || c == '-' || c == '•' then rest.dropWhile isPySpace
    else line
  | [] => line

/-- `', '.join(filter(None, content_buffer))`. -/
def joinBuf (buf : List Str) : Str :=
  joinComma (buf.filter (fun w => !w.isEmpty))

/-- `df.loc[df['Category'] == cat, 'Analysis'] = v`: set the Analysis
field of every row whose Category equals `cat`. -/
def setValue (rows : List (Str × Str)) (cat v : Str) : List (Str × Str) :=
  rows.map (fun r => if r.1 = cat then (r.1, v) else r)

/-- Loop state of `create_analysis_table`: the DataFrame rows, the
current category and the content buffer. -/
structure PState where
  rows : List (Str × Str)
  cur : Option Str
  buf : List Str

/-- Flush the buffer into the current category's row (a no-op when no
category is active or the buffer is empty), as done both on a new
heading and after the last line. -/
def flushState (st : PState) : List (Str × Str) :=
  match st.cur with
  | some c => if st.buf.isEmpty then st.rows else setValue st.rows c (joinBuf st.buf)
  | none => st.rows

/-- One iteration of the line loop of `create_analysis_table`
(src/app.py lines 934-949). -/
def processLine (st : PState) (raw : Str) : PState :=
  let line := pystrip raw
  if line = [] then st
  else
    match find_category line with
    | some (cat, initial) =>
      { rows := flushState st
        cur := some cat
        buf := if initial = [] then [] else [initial] }
    | none =>
      match st.cur with
      | some _ =>
        let cleaned := stripBullet line
        if cleaned = [] then st else { st with buf := st.buf ++ [cleaned] }
      | none => st

/-- `analysis.replace(f"{cat}:", "")` folded over all categories. -/
def removeCategoryNames (v : Str) : Str :=
  categories.foldl (fun acc c => replaceAll (c ++ [':']) acc) v

/-- `re.sub(r'^[ivxIVX]+\)', '', l)`: the regex matches exactly when the
maximal leading run of roman letters is non-empty and is followed by
`)`. -/
def isRomanChar (c : Char) : Bool :=
  c == 'i' || c == 'v' || c == 'x' || c == 'I' || c == 'V' || c == 'X'

def stripRomanRun (l : Str) : Str :=
  let r := l.takeWhile isRomanChar
  if r.isEmpty then l
  else match l.drop r.length with
    | ')' :: rest => rest
    | _ => l

/-- `re.sub(r'^[a-zA-Z]\)', '', l)`. -/
def isAsciiLetter (c : Char) : Bool :=
  ('a' ≤ c && c ≤ 'z') || ('A' ≤ c && c ≤ 'Z')

def stripLetterRun (l : Str) : Str :=
  match l with
  | c :: ')' :: rest => if isAsciiLetter c then rest else l
  | _ => l

/-- The per-row post-processing of `create_analysis_table`
(src/app.py lines 961-972). -/
def postClean (v : Str) : Str :=
  clean_text (stripLetterRun (stripRomanRun (removeCategoryNames v)))

/-- The initial DataFrame rows: every category paired with `''`. -/
def initRows : List (Str × Str) :=
  categories.map (fun c => (c, ([] : Str)))

/-- `TikTokAnalyzer.create_analysis_table` (src/app.py lines 858-974).
The result is the DataFrame as an ordered list of
(Category, Analysis) rows; `none` models a Python `None` argument, and
both `None` and `''` take the `if not text: return pd.DataFrame()`
short-circuit, producing the empty (zero-row) frame. -/
def create_analysis_table : Option Str → List (Str × Str)
  | none => []
  | some text =>
    if text = [] then []
    else
      let t := replaceAll ['*'] (replaceStarStar text)
      let lines := splitOnNl t
      let st := lines.foldl processLine ⟨initRows, none, []⟩
      let rows := flushState st
      rows.map (fun r => (r.1, postClean r.2))

/-- Look up a category's Analysis value in the resulting rows. -/
def lookupValue (rows : List (Str × Str)) (cat : Str) : Option Str :=
  (rows.find? (fun r => r.1 == cat)).map (fun r => r.2)

/-! ## Temporary-file lifecycle model

`analyze_video` (src/app.py lines 748-805) downloads the media to a
temporary file and removes `video_path` in a `finally` block; the
download helpers (lines 807-846) create their temporary files with
`tempfile.NamedTemporaryFile(delete=False, ...)`.  The model below
tracks only what matters for the cleanup claim: which created files are
still on disk when `analyze_video` finishes (by return or exception).
Files get fresh numeric names from a counter. -/

/-- Outcome of one download attempt against one source.

* `headFail`: the `requests.head` call does not return 200 (or raises),
  so no temporary file is created;
* `getRaise`: `head` returns 200, `NamedTemporaryFile(delete=False)`
  creates the file, and then the `requests.get`/write raises;
* `getOk`: the file is created and the download completes. -/
inductive DlAttempt where
  | headFail
  | getRaise
  | getOk
deriving DecidableEq

/-- `TikTokAnalyzer.try_s3_download` (src/app.py lines 807-827): try the
S3 buckets in order; an exception during an attempt is swallowed by
`except Exception: continue` and the next bucket is tried; the file of a
failed attempt is not removed.  Returns (returned path, disk, counter). -/
def try_s3_download :
    List DlAttempt → List Nat → Nat → Option Nat × List Nat × Nat
  | [], disk, ctr => (none, disk, ctr)
  | a :: rest, disk, ctr =>
    match a with
    | DlAttempt.headFail => try_s3_download rest disk ctr
    | DlAttempt.getRaise => try_s3_download rest (disk ++ [ctr]) (ctr + 1)
    | DlAttempt.getOk => (some ctr, disk ++ [ctr], ctr + 1)

/-- `TikTokAnalyzer.download_direct_video` (src/app.py lines 829-846):
one attempt; an exception is caught and `None` is returned, leaving the
created file on disk. -/
def download_direct_video :
    DlAttempt → List Nat → Nat → Option Nat × List Nat × Nat
  | DlAttempt.headFail, disk, ctr => (none, disk, ctr)
  | DlAttempt.getRaise, disk, ctr => (none, disk ++ [ctr], ctr + 1)
  | DlAttempt.getOk, disk, ctr => (some ctr, disk ++ [ctr], ctr + 1)

/-- URL classification of `analyze_video` (`convert_to_embed_url`). -/
inductive UrlKind where
  | tiktok
  | instagram
  | direct_mp4
  | invalid
deriving DecidableEq

/-- The disk contents after `analyze_video` exits (src/app.py lines
748-805), on every exit path: whatever happens after the download
(model upload, analysis, a raised exception), the `finally` block
removes exactly `video_path` — and only it — when it is set and exists. -/
def analyze_video_disk (kind : UrlKind) (attempts : List DlAttempt)
    (direct : DlAttempt) (disk : List Nat) (ctr : Nat) : List Nat :=
  let r :=
    match kind with
    | UrlKind.tiktok => try_s3_download attempts disk ctr
    | UrlKind.instagram => try_s3_download attempts disk ctr
    | UrlKind.direct_mp4 => download_direct_video direct disk ctr
    | UrlKind.invalid => (none, disk, ctr)
  match r.1 with
  | some p => (r.2.1).erase p
  | none => r.2.1

/-- The subsequence of square-bracket characters of a string. -/
def brackets (l : Str) : Str :=
  l.filter (fun c => c == '[' || c == ']')

/-- A string whose bracket subsequence is some `]`s followed by some
`[`s: no `[` is ever followed by a `]`, so `re.sub(r'\[.*?\]', '', _)`
cannot fire on it. -/
def bform (l : Str) : Prop :=
  ∃ a b, brackets l = List.replicate a ']' ++ List.replicate b '['

/-! ## Helper lemmas -/

theorem map_fst_setValue (rows : List (Str × Str)) (cat v : Str) :
    (setValue rows cat v).map Prod.fst = rows.map Prod.fst := by
  unfold setValue
  rw [List.map_map]
  apply List.map_congr_left
  intro r _
  by_cases h : r.1 = cat <;> simp [h]

theorem map_fst_flushState (st : PState) :
    (flushState st).map Prod.fst = st.rows.map Prod.fst := by
  unfold flushState
  rcases st with ⟨rows, cur, buf⟩
  cases cur
  · rfl
  · dsimp only
    split
    · rfl
    · exact map_fst_setValue _ _ _

theorem map_fst_processLine (st : PState) (raw : Str) :
    (processLine st raw).rows.map Prod.fst = st.rows.map Prod.fst := by
  simp only [processLine]
  by_cases hline : pystrip raw = []
  · rw [if_pos hline]
  · rw [if_neg hline]
    cases hfc : find_category (pystrip raw) with
    | some p =>
      exact map_fst_flushState st
    | none =>
      cases hcur : st.cur with
      | some c =>
        dsimp only
        split
        · rfl
        · rfl
      | none => rfl

theorem map_fst_foldl (lines : List Str) (st : PState) :
    ((lines.foldl processLine st).rows).map Prod.fst = st.rows.map Prod.fst := by
  induction lines generalizing st with
  | nil => rfl
  | cons l ls ih =>
    rw [List.foldl_cons, ih, map_fst_processLine]

theorem map_fst_initRows : initRows.map Prod.fst = categories := by decide

theorem replaceStarStar_id {l : Str} (h : '*' ∉ l) : replaceStarStar l = l := by
  induction l with
  | nil => rfl
  | cons c rest ih =>
    cases rest with
    | nil => rfl
    | cons d rest2 =>
      simp only [replaceStarStar]
      rw [if_neg]
      · rw [ih (fun hm => h (List.mem_cons_of_mem _ hm))]
      · rintro ⟨hc, _⟩
        exact h (by rw [hc]; exact List.mem_cons_self _ _)

theorem replaceAllF_head_not_mem (p : Char) (pat : Str)
    (hpat : pat.head? = some p) :
    ∀ (f : Nat) {l : Str}, p ∉ l → replaceAllF pat f l = l := by
  intro f
  induction f with
  | zero =>
    intro l _
    cases l <;> rfl
  | succ f ih =>
    intro l h
    cases l with
    | nil => rfl
    | cons c rest =>
      have hc : ¬(c = p) := fun he => h (by rw [← he]; exact List.mem_cons_self _ _)
      simp only [replaceAllF]
      have hcond : (!pat.isEmpty && pat.isPrefixOf (c :: rest)) = false := by
        cases pat with
        | nil => simp at hpat
        | cons q pat2 =>
          have hq : q = p := by simpa using hpat
          subst hq
          have hqc : (q == c) = false := beq_eq_false_iff_ne.mpr (fun he => hc he.symm)
          simp [List.isPrefixOf, hqc]
      rw [hcond]
      simp only [Bool.false_eq_true, if_false]
      rw [ih (fun hm => h (List.mem_cons_of_mem _ hm))]

theorem splitOnNl_append {a b : Str} (h : '\n' ∉ a) :
    splitOnNl (a ++ '\n' :: b) = a :: splitOnNl b := by
  induction a with
  | nil => simp [splitOnNl]
  | cons c a ih =>
    have hc : ¬(c = '\n') := fun he => h (by rw [← he]; exact List.mem_cons_self _ _)
    have ha : '\n' ∉ a := fun hm => h (List.mem_cons_of_mem _ hm)
    simp only [List.cons_append, splitOnNl, List.append_eq]
    rw [if_neg hc, ih ha]

theorem splitOnNl_no_nl {b : Str} (h : '\n' ∉ b) : splitOnNl b = [b] := by
  induction b with
  | nil => rfl
  | cons c b ih =>
    have hc : ¬(c = '\n') := fun he => h (by rw [← he]; exact List.mem_cons_self _ _)
    have hb : '\n' ∉ b := fun hm => h (List.mem_cons_of_mem _ hm)
    simp only [splitOnNl]
    rw [if_neg hc, ih hb]

theorem processLine_heading (st : PState) {raw cat v : Str}
    (hs : pystrip raw = raw) (hne : raw ≠ [])
    (hf : find_category raw = some (cat, v)) (hv : v ≠ []) :
    processLine st raw = ⟨flushState st, some cat, [v]⟩ := by
  simp only [processLine, hs]
  rw [if_neg hne, hf]
  simp only [if_neg hv]

theorem flushState_single (rows : List (Str × Str)) (cat v : Str) (hv : v ≠ []) :
    flushState ⟨rows, some cat, [v]⟩ = setValue rows cat v := by
  have hvempty : v.isEmpty = false := by
    cases v with
    | nil => exact absurd rfl hv
    | cons c rest => rfl
  simp [flushState, joinBuf, joinComma, hvempty]

theorem setValue_setValue (rows : List (Str × Str)) (cat a b : Str) :
    setValue (setValue rows cat a) cat b = setValue rows cat b := by
  unfold setValue
  rw [List.map_map]
  apply List.map_congr_left
  intro r _
  by_cases h : r.1 = cat <;> simp [h]

theorem lookup_setValue_clean (cs : List Str) (cat v : Str) (hmem : cat ∈ cs) :
    lookupValue ((setValue (cs.map (fun c => (c, ([] : Str)))) cat v).map
      (fun r => (r.1, postClean r.2))) cat = some (postClean v) := by
  induction cs with
  | nil => cases hmem
  | cons c cs ih =>
    by_cases h : c = cat
    · subst h
      simp [lookupValue, setValue, List.find?]
    · have hcs : cat ∈ cs := (List.mem_cons.mp hmem).resolve_left (fun he => h he.symm)
      have hbeq : (c == cat) = false := by
        simpa using h
      simp only [List.map_cons, setValue, List.map, lookupValue, List.find?]
      rw [if_neg (by simpa using h)]
      simp only [hbeq]
      exact ih hcs

theorem find_category_cat_mem {line cat v : Str}
    (h : find_category line = some (cat, v)) : cat ∈ categories := by
  have hmapall : ∀ kc ∈ category_mapping, Prod.snd kc ∈ categories := by decide
  simp only [find_category] at h
  cases hfind : category_mapping.find?
      (fun kc => containsSub kc.1 (lowerStr (stripListMarker line))) with
  | none =>
    rw [hfind] at h
    simp at h
  | some kc =>
    rw [hfind] at h
    rw [Option.some_inj, Prod.mk.injEq] at h
    exact h.1 ▸ hmapall kc (List.mem_of_find?_eq_some hfind)

/-! ## Claim theorems -/

/-- C2 counterexample: calling the parser with the empty string does
not yield a record containing every declared category mapped to the
empty string; it yields the empty zero-row frame
(`if not text: return pd.DataFrame()`). -/
theorem c2_empty_input_not_all_empty_record :
    create_analysis_table (some "".toList) ≠
      categories.map (fun c => (c, ([] : Str))) := by decide

/-- C2 (amended): calling the parser with a `None` or empty-string text
input short-circuits to the empty, zero-row table — no category rows at
all — before any line processing. -/
theorem c2_empty_input_yields_empty_frame :
    create_analysis_table none = [] ∧
    create_analysis_table (some "".toList) = [] := by decide

/-- C1 counterexample: on the empty input text the returned record's
key set is empty, not the declared 16-category set. -/
theorem c1_keyset_fails_on_empty_text :
    (create_analysis_table (some "".toList)).map Prod.fst ≠ categories := by
  decide

/-- C4: parsing "Content Theme: Comedy (80%), Drama (20%)\nContent
Style: Vlog" yields Content Theme = "Comedy (80%), Drama (20%)",
Content Style = "Vlog", and every other field empty. -/
theorem c4_content_theme_style_example :
    create_analysis_table
        (some "Content Theme: Comedy (80%), Drama (20%)\nContent Style: Vlog".toList) =
      categories.map (fun c =>
        (c, if c = "Content Theme".toList then "Comedy (80%), Drama (20%)".toList
            else if c = "Content Style".toList then "Vlog".toList
            else [])) := by decide

/-- C5: consecutive lines of one category are joined with ", " after
bullet stripping: "Brand Safety: none\n- no concerns noted" gives
Brand Safety = "none, no concerns noted" (other fields empty). -/
theorem c5_brand_safety_continuation :
    create_analysis_table (some "Brand Safety: none\n- no concerns noted".toList) =
      categories.map (fun c =>
        (c, if c = "Brand Safety".toList then "none, no concerns noted".toList
            else [])) := by decide

/-- C6: a roman-numeral list marker before a heading is stripped before
matching, so "ii) Content Style: Tutorial" parses exactly like
"Content Style: Tutorial". -/
theorem c6_list_marker_equivalence :
    create_analysis_table (some "ii) Content Style: Tutorial".toList) =
      create_analysis_table (some "Content Style: Tutorial".toList) := by decide

/-- C7: a bracketed aside in a field value is stripped non-greedily by
the post-processing: "Language: English [choose one]" yields
Language = "English". -/
theorem c7_bracketed_aside_stripped :
    create_analysis_table (some "Language: English [choose one]".toList) =
      categories.map (fun c =>
        (c, if c = "Language".toList then "English".toList else [])) := by
  decide

/-- C8 counterexample: `clean_text` is not idempotent.  On
"[a\nb]" the bracket regex does not fire (`.` does not match the
newline), whitespace collapsing then turns the newline into a space,
and a second application deletes the now-matching "[a b]". -/
theorem c8_clean_text_not_idempotent :
    clean_text (clean_text "[a\nb]".toList) ≠ clean_text "[a\nb]".toList := by
  decide

/-- C9: the temporary file of a failed download attempt survives
`analyze_video`.  First S3 bucket: HEAD 200, temp file 0 created, GET
raises (swallowed by `continue`); second bucket succeeds with file 1;
the `finally` block removes only `video_path` = 1, so file 0 is still
on disk after `analyze_video` exits.  Likewise for a direct-URL
download whose GET raises after the file is created. -/
theorem c9_temp_file_leak_on_failed_attempt :
    analyze_video_disk UrlKind.tiktok [DlAttempt.getRaise, DlAttempt.getOk]
        DlAttempt.headFail [] 0 = [0] ∧
    analyze_video_disk UrlKind.direct_mp4 [] DlAttempt.getRaise [] 0 = [0] := by
  decide

/-- C1 (amended): for every non-empty input text, the record returned
by `create_analysis_table` has exactly the declared 16-category list as
its key sequence — every declared category has an entry (initialised to
the empty string and only ever updated in place), so the record is
total over the category domain. -/
theorem c1_record_total_over_categories (t : Str) (h : t ≠ []) :
    (create_analysis_table (some t)).map Prod.fst = categories ∧
    ∀ c ∈ categories, ∃ v, (c, v) ∈ create_analysis_table (some t) := by
  have hkeys : (create_analysis_table (some t)).map Prod.fst = categories := by
    simp only [create_analysis_table]
    rw [if_neg h]
    rw [List.map_map]
    have hcomp : (Prod.fst ∘ fun r : Str × Str => (r.1, postClean r.2)) = Prod.fst := by
      funext r
      rfl
    rw [hcomp, map_fst_flushState, map_fst_foldl]
    exact map_fst_initRows
  refine ⟨hkeys, ?_⟩
  intro c hc
  rw [← hkeys] at hc
  rcases List.mem_map.mp hc with ⟨r, hr, hfst⟩
  refine ⟨r.2, ?_⟩
  rw [← hfst, Prod.mk.eta]
  exact hr

/-- C1 witness: the totality theorem applied to the one-character
input "x". -/
theorem c1_record_total_witness :
    (create_analysis_table (some "x".toList)).map Prod.fst = categories :=
  (c1_record_total_over_categories "x".toList (by decide)).1

/-- C3: heading matching is substring-based and case-insensitive.  If
any registered phrase of `category_mapping` occurs anywhere in the
lowercased, list-marker-stripped line — not only at its start — then
`find_category` classifies the line as a heading, and the category it
returns is one whose phrase occurs in the lowercased stripped line. -/
theorem c3_substring_case_insensitive_matching (line k cat : Str)
    (hmem : (k, cat) ∈ category_mapping)
    (hsub : containsSub k (lowerStr (stripListMarker line)) = true) :
    ∃ c i, find_category line = some (c, i) ∧
      ∃ kc, (kc, c) ∈ category_mapping ∧
        containsSub kc (lowerStr (stripListMarker line)) = true := by
  unfold find_category
  dsimp only
  cases hfind : category_mapping.find?
      (fun kc => containsSub kc.1 (lowerStr (stripListMarker line))) with
  | none =>
    exact absurd hsub (by simpa using List.find?_eq_none.mp hfind (k, cat) hmem)
  | some kc =>
    have h1 : containsSub kc.1 (lowerStr (stripListMarker line)) = true := by
      simpa using List.find?_some hfind
    have h2 : (kc.1, kc.2) ∈ category_mapping := by
      rw [Prod.mk.eta]
      exact List.mem_of_find?_eq_some hfind
    exact ⟨kc.2, _, rfl, kc.1, h2, h1⟩

/-- C3 witness: the phrase "location" occurring mid-sentence in a body
line (not at the line start) still classifies the line. -/
theorem c3_substring_matching_witness :
    ∃ c i,
      find_category "she mentioned the location in passing".toList = some (c, i) ∧
      ∃ kc, (kc, c) ∈ category_mapping ∧
        containsSub kc
          (lowerStr (stripListMarker
            "she mentioned the location in passing".toList)) = true :=
  c3_substring_case_insensitive_matching
    "she mentioned the location in passing".toList
    "location".toList "Location".toList (by decide) (by decide)

/-- C10: last write wins.  When two input lines are both classified as
headings of the same category `cat` (each with non-empty seeded
content), the flush triggered by the second heading stores the first
line's content, and the end-of-input flush then overwrites that row
with only the content buffered after the last matching line — the
final field value is the post-processed `v2`, with the earlier `v1`
lost rather than appended. -/
theorem c10_last_write_wins (l1 l2 cat v1 v2 : Str)
    (h1nl : '\n' ∉ l1) (h2nl : '\n' ∉ l2)
    (h1st : '*' ∉ l1) (h2st : '*' ∉ l2)
    (hs1 : pystrip l1 = l1) (hs2 : pystrip l2 = l2)
    (hne1 : l1 ≠ []) (hne2 : l2 ≠ [])
    (hf1 : find_category l1 = some (cat, v1))
    (hf2 : find_category l2 = some (cat, v2))
    (hv1 : v1 ≠ []) (hv2 : v2 ≠ []) :
    lookupValue (create_analysis_table (some (l1 ++ '\n' :: l2))) cat =
      some (postClean v2) := by
  have hT : (l1 ++ '\n' :: l2) ≠ [] := by simp
  have hTstar : '*' ∉ (l1 ++ '\n' :: l2) := by
    intro hm
    rcases List.mem_append.mp hm with hm | hm
    · exact h1st hm
    · rcases List.mem_cons.mp hm with he | hm
      · exact absurd he (by decide)
      · exact h2st hm
  simp only [create_analysis_table]
  rw [if_neg hT]
  rw [replaceStarStar_id hTstar]
  simp only [replaceAll]
  rw [replaceAllF_head_not_mem '*' ['*'] rfl _ hTstar]
  rw [splitOnNl_append h1nl, splitOnNl_no_nl h2nl]
  simp only [List.foldl_cons, List.foldl_nil]
  rw [processLine_heading _ hs1 hne1 hf1 hv1]
  have e1 : flushState (⟨initRows, none, []⟩ : PState) = initRows := rfl
  rw [e1]
  rw [processLine_heading _ hs2 hne2 hf2 hv2]
  rw [flushState_single initRows cat v1 hv1]
  rw [flushState_single (setValue initRows cat v1) cat v2 hv2]
  rw [setValue_setValue]
  have : initRows = categories.map (fun c => (c, ([] : Str))) := rfl
  rw [this]
  exact lookup_setValue_clean categories cat v2 (find_category_cat_mem hf1)

/-- C10 witness: "Location: Paris" followed by "Location: London"
leaves only "London" in the Location field. -/
theorem c10_last_write_wins_witness :
    lookupValue
      (create_analysis_table
        (some ("Location: Paris".toList ++ '\n' :: "Location: London".toList)))
      "Location".toList = some (postClean "London".toList) :=
  c10_last_write_wins "Location: Paris".toList "Location: London".toList
    "Location".toList "Paris".toList "London".toList
    (by decide) (by decide) (by decide) (by decide) (by decide) (by decide)
    (by decide) (by decide) (by decide) (by decide) (by decide) (by decide)

theorem mem_dropWhile {p : Char → Bool} {l : Str} {c : Char}
    (h : c ∈ l.dropWhile p) : c ∈ l :=
  (List.dropWhile_sublist p).subset h

theorem mem_pystrip {l : Str} {c : Char} (h : c ∈ pystrip l) : c ∈ l := by
  unfold pystrip at h
  have h1 := List.mem_reverse.mp h
  have h2 := List.mem_reverse.mp (mem_dropWhile h1)
  exact mem_dropWhile h2

theorem findClose_subset :
    ∀ {l l2 : Str}, findClose l = some l2 → ∀ {c : Char}, c ∈ l2 → c ∈ l := by
  intro l
  induction l with
  | nil => intro l2 h; simp [findClose] at h
  | cons a rest ih =>
    intro l2 h c hc
    simp only [findClose] at h
    by_cases ha : a = ']'
    · rw [if_pos ha] at h
      rw [Option.some_inj] at h
      subst h
      exact List.mem_cons_of_mem _ hc
    · rw [if_neg ha] at h
      by_cases hb : a = '\n'
      · rw [if_pos hb] at h
        simp at h
      · rw [if_neg hb] at h
        exact List.mem_cons_of_mem _ (ih h hc)

theorem findClose_length :
    ∀ {l l2 : Str}, findClose l = some l2 → l2.length < l.length := by
  intro l
  induction l with
  | nil => intro l2 h; simp [findClose] at h
  | cons a rest ih =>
    intro l2 h
    simp only [findClose] at h
    by_cases ha : a = ']'
    · rw [if_pos ha] at h
      rw [Option.some_inj] at h
      subst h
      simp
    · rw [if_neg ha] at h
      by_cases hb : a = '\n'
      · rw [if_pos hb] at h
        simp at h
      · rw [if_neg hb] at h
        exact Nat.lt_trans (ih h) (by simp)

theorem findClose_none_of_no_close :
    ∀ {l : Str}, ']' ∉ l → findClose l = none := by
  intro l
  induction l with
  | nil => intro _; rfl
  | cons a rest ih =>
    intro h
    have ha : ¬(a = ']') := fun he => h (by rw [← he]; exact List.mem_cons_self _ _)
    simp only [findClose]
    rw [if_neg ha]
    by_cases hb : a = '\n'
    · rw [if_pos hb]
    · rw [if_neg hb]
      exact ih (fun hm => h (List.mem_cons_of_mem _ hm))

theorem no_close_of_findClose_none :
    ∀ {l : Str}, findClose l = none → '\n' ∉ l → ']' ∉ l := by
  intro l
  induction l with
  | nil => intro _ _; simp
  | cons a rest ih =>
    intro h hnl
    have hb : ¬(a = '\n') := fun he => hnl (by rw [← he]; exact List.mem_cons_self _ _)
    simp only [findClose] at h
    by_cases ha : a = ']'
    · rw [if_pos ha] at h
      simp at h
    · rw [if_neg ha, if_neg hb] at h
      intro hm
      rcases List.mem_cons.mp hm with he | hm2
      · exact ha he.symm
      · exact ih h (fun hm3 => hnl (List.mem_cons_of_mem _ hm3)) hm2

theorem mem_removeBracketsF :
    ∀ (f : Nat) {l : Str} {c : Char}, c ∈ removeBracketsF f l → c ∈ l := by
  intro f
  induction f with
  | zero =>
    intro l c h
    cases l with
    | nil => simp [removeBracketsF] at h
    | cons a rest => simpa [removeBracketsF] using h
  | succ f ih =>
    intro l c h
    cases l with
    | nil => simp [removeBracketsF] at h
    | cons a rest =>
      simp only [removeBracketsF] at h
      by_cases ha : a = '['
      · rw [if_pos ha] at h
        cases hfc : findClose rest with
        | some rest2 =>
          rw [hfc] at h
          exact List.mem_cons_of_mem _ (findClose_subset hfc (ih h))
        | none =>
          rw [hfc] at h
          rcases List.mem_cons.mp h with he | h2
          · rw [he, ha]
            exact List.mem_cons_self _ _
          · exact List.mem_cons_of_mem _ (ih h2)
      · rw [if_neg ha] at h
        rcases List.mem_cons.mp h with he | h2
        · rw [he]
          exact List.mem_cons_self _ _
        · exact List.mem_cons_of_mem _ (ih h2)

theorem mem_replaceAllF :
    ∀ {pat : Str} (f : Nat) {l : Str} {c : Char}, c ∈ replaceAllF pat f l → c ∈ l := by
  intro pat f
  induction f with
  | zero =>
    intro l c h
    cases l with
    | nil => simp [replaceAllF] at h
    | cons a rest => simpa [replaceAllF] using h
  | succ f ih =>
    intro l c h
    cases l with
    | nil => simp [replaceAllF] at h
    | cons a rest =>
      simp only [replaceAllF] at h
      by_cases hcond : (!pat.isEmpty && pat.isPrefixOf (a :: rest)) = true
      · rw [hcond] at h
        simp only [if_true] at h
        exact List.drop_subset _ _ (ih h)
      · rw [Bool.not_eq_true] at hcond
        rw [hcond] at h
        simp only [Bool.false_eq_true, if_false] at h
        rcases List.mem_cons.mp h with he | h2
        · rw [he]
          exact List.mem_cons_self _ _
        · exact List.mem_cons_of_mem _ (ih h2)

theorem mem_joinSp :
    ∀ {ws : List Str} {c : Char}, c ∈ joinSp ws → c = ' ' ∨ ∃ w ∈ ws, c ∈ w := by
  intro ws
  induction ws with
  | nil => intro c h; simp [joinSp] at h
  | cons w ws ih =>
    intro c h
    cases ws with
    | nil =>
      right
      exact ⟨w, by simp, by simpa [joinSp] using h⟩
    | cons v ws2 =>
      rw [show joinSp (w :: v :: ws2) = w ++ ' ' :: joinSp (v :: ws2) from rfl] at h
      rcases List.mem_append.mp h with h1 | h1
      · right
        exact ⟨w, by simp, h1⟩
      · rcases List.mem_cons.mp h1 with he | h2
        · left
          exact he
        · rcases ih h2 with he | ⟨w2, hw2, hc2⟩
          · left
            exact he
          · right
            exact ⟨w2, List.mem_cons_of_mem _ hw2, hc2⟩

theorem star_not_mem_replaceAllF :
    ∀ (f : Nat) {l : Str}, l.length ≤ f → '*' ∉ replaceAllF ['*'] f l := by
  intro f
  induction f with
  | zero =>
    intro l h
    rw [List.length_eq_zero.mp (Nat.le_zero.mp h)]
    simp [replaceAllF]
  | succ f ih =>
    intro l h
    cases l with
    | nil => simp [replaceAllF]
    | cons a rest =>
      simp only [replaceAllF]
      by_cases ha : a = '*'
      · have hcond : (!(['*'] : Str).isEmpty && (['*'] : Str).isPrefixOf (a :: rest)) = true := by
          subst ha
          simp [List.isPrefixOf]
        rw [hcond]
        simp only [if_true]
        have : (a :: rest).drop (['*'] : Str).length = rest := rfl
        rw [this]
        exact ih (Nat.le_of_succ_le_succ (by simpa using h))
      · have hcond : (!(['*'] : Str).isEmpty && (['*'] : Str).isPrefixOf (a :: rest)) = false := by
          have hba : ('*' == a) = false := beq_eq_false_iff_ne.mpr (fun he => ha he.symm)
          simp [List.isPrefixOf, hba]
        rw [hcond]
        simp only [Bool.false_eq_true, if_false]
        intro hm
        rcases List.mem_cons.mp hm with he | h2
        · exact ha he.symm
        · exact ih (Nat.le_of_succ_le_succ (by simpa using h)) h2

theorem not_bracket_of_space {c : Char} (h : isPySpace c = true) :
    (c == '[' || c == ']') = false := by
  by_cases h1 : c = '['
  · rw [h1] at h
    exact absurd h (by decide)
  · by_cases h2 : c = ']'
    · rw [h2] at h
      exact absurd h (by decide)
    · rw [beq_eq_false_iff_ne.mpr h1, beq_eq_false_iff_ne.mpr h2]
      rfl

theorem brackets_cons_space {c : Char} (h : isPySpace c = true) (l : Str) :
    brackets (c :: l) = brackets l := by
  simp [brackets, List.filter_cons, not_bracket_of_space h]

theorem brackets_dropWhile_space (l : Str) :
    brackets (l.dropWhile isPySpace) = brackets l := by
  induction l with
  | nil => rfl
  | cons c rest ih =>
    by_cases hc : isPySpace c
    · rw [List.dropWhile_cons, if_pos hc, ih, brackets_cons_space hc]
    · rw [List.dropWhile_cons, if_neg hc]

theorem brackets_reverse (l : Str) : brackets l.reverse = (brackets l).reverse :=
  List.filter_reverse _ _

theorem brackets_pystrip (l : Str) : brackets (pystrip l) = brackets l := by
  unfold pystrip
  rw [brackets_reverse, brackets_dropWhile_space, brackets_reverse,
    List.reverse_reverse, brackets_dropWhile_space]

theorem brackets_append (a b : Str) :
    brackets (a ++ b) = brackets a ++ brackets b :=
  List.filter_append _ _

theorem pysplit_cons_ne_nil {d : Char} (hd : isPySpace d = false) :
    ∀ (rest : Str), pysplit (d :: rest) ≠ [] := by
  intro rest
  cases rest with
  | nil => simp [pysplit, hd]
  | cons e rest2 =>
    simp only [pysplit]
    rw [hd]
    simp only [Bool.false_eq_true, if_false]
    by_cases he : isPySpace e = true
    · rw [if_pos he]
      simp
    · rw [if_neg he]
      cases pysplit (e :: rest2) <;> simp

theorem brackets_joinSp :
    ∀ (ws : List Str), brackets (joinSp ws) = (ws.map brackets).flatten := by
  intro ws
  induction ws with
  | nil => rfl
  | cons w ws ih =>
    cases ws with
    | nil => simp [joinSp]
    | cons v ws2 =>
      rw [show joinSp (w :: v :: ws2) = w ++ ' ' :: joinSp (v :: ws2) from rfl]
      rw [brackets_append, brackets_cons_space (by decide), ih]
      simp [List.map_cons, List.flatten_cons]

theorem brackets_join_pysplit :
    ∀ (l : Str), ((pysplit l).map brackets).flatten = brackets l := by
  intro l
  induction l using pysplit.induct with
  | case1 => rfl
  | case2 c hc =>
    rw [show pysplit [c] = [] from by simp [pysplit, hc]]
    rw [brackets_cons_space hc]
    rfl
  | case3 c hc =>
    rw [show pysplit [c] = [[c]] from by simp [pysplit, hc]]
    simp
  | case4 c d rest hc ih =>
    rw [show pysplit (c :: d :: rest) = pysplit (d :: rest) from by
      simp [pysplit, hc]]
    rw [ih, brackets_cons_space hc]
  | case5 c d rest hc hd ih =>
    rw [show pysplit (c :: d :: rest) = [c] :: pysplit rest from by
      simp [pysplit, hc, hd]]
    rw [List.map_cons, List.flatten_cons, ih]
    rw [show brackets (c :: d :: rest) = brackets [c] ++ brackets (d :: rest) from
      brackets_append [c] (d :: rest)]
    rw [brackets_cons_space hd]
  | case6 c d rest hc hd hnil ih =>
    have hd2 : isPySpace d = false := by simpa using hd
    exact absurd hnil (pysplit_cons_ne_nil hd2 rest)
  | case7 c d rest hc hd w ws hws ih =>
    rw [show pysplit (c :: d :: rest) = (c :: w) :: ws from by
      simp [pysplit, hc, hd, hws]]
    rw [List.map_cons, List.flatten_cons]
    rw [show brackets (c :: w) = brackets [c] ++ brackets w from
      brackets_append [c] w]
    rw [show brackets (c :: d :: rest) = brackets [c] ++ brackets (d :: rest) from
      brackets_append [c] (d :: rest)]
    rw [← ih, hws, List.map_cons, List.flatten_cons, List.append_assoc]

theorem pysplit_good :
    ∀ (l : Str), ∀ w ∈ pysplit l, w ≠ [] ∧ ∀ c ∈ w, isPySpace c = false := by
  intro l
  induction l using pysplit.induct with
  | case1 => intro w hw; simp [pysplit] at hw
  | case2 c hc => intro w hw; simp [pysplit, hc] at hw
  | case3 c hc =>
    intro w hw
    rw [show pysplit [c] = [[c]] from by simp [pysplit, hc]] at hw
    rcases List.mem_singleton.mp hw with rfl
    refine ⟨by simp, ?_⟩
    intro e he
    rcases List.mem_singleton.mp he with rfl
    simpa using hc
  | case4 c d rest hc ih =>
    intro w hw
    rw [show pysplit (c :: d :: rest) = pysplit (d :: rest) from by
      simp [pysplit, hc]] at hw
    exact ih w hw
  | case5 c d rest hc hd ih =>
    intro w hw
    rw [show pysplit (c :: d :: rest) = [c] :: pysplit rest from by
      simp [pysplit, hc, hd]] at hw
    rcases List.mem_cons.mp hw with rfl | hw2
    · refine ⟨by simp, ?_⟩
      intro e he
      rcases List.mem_singleton.mp he with rfl
      simpa using hc
    · exact ih w hw2
  | case6 c d rest hc hd hnil ih =>
    have hd2 : isPySpace d = false := by simpa using hd
    exact absurd hnil (pysplit_cons_ne_nil hd2 rest)
  | case7 c d rest hc hd w ws hws ih =>
    intro w2 hw2
    rw [show pysplit (c :: d :: rest) = (c :: w) :: ws from by
      simp [pysplit, hc, hd, hws]] at hw2
    rcases List.mem_cons.mp hw2 with rfl | hw3
    · have hw4 := ih w (by rw [hws]; exact List.mem_cons_self _ _)
      refine ⟨by simp, ?_⟩
      intro e he
      rcases List.mem_cons.mp he with rfl | he2
      · simpa using hc
      · exact hw4.2 e he2
    · exact ih w2 (by rw [hws]; exact List.mem_cons_of_mem _ hw3)

theorem pysplit_mem_subset :
    ∀ (l : Str), ∀ w ∈ pysplit l, ∀ c ∈ w, c ∈ l := by
  intro l
  induction l using pysplit.induct with
  | case1 => intro w hw; simp [pysplit] at hw
  | case2 c hc => intro w hw; simp [pysplit, hc] at hw
  | case3 c hc =>
    intro w hw
    rw [show pysplit [c] = [[c]] from by simp [pysplit, hc]] at hw
    rcases List.mem_singleton.mp hw with rfl
    intro e he
    exact he
  | case4 c d rest hc ih =>
    intro w hw
    rw [show pysplit (c :: d :: rest) = pysplit (d :: rest) from by
      simp [pysplit, hc]] at hw
    intro e he
    exact List.mem_cons_of_mem _ (ih w hw e he)
  | case5 c d rest hc hd ih =>
    intro w hw
    rw [show pysplit (c :: d :: rest) = [c] :: pysplit rest from by
      simp [pysplit, hc, hd]] at hw
    rcases List.mem_cons.mp hw with rfl | hw2
    · intro e he
      rcases List.mem_singleton.mp he with rfl
      exact List.mem_cons_self _ _
    · intro e he
      exact List.mem_cons_of_mem _ (List.mem_cons_of_mem _ (ih w hw2 e he))
  | case6 c d rest hc hd hnil ih =>
    have hd2 : isPySpace d = false := by simpa using hd
    exact absurd hnil (pysplit_cons_ne_nil hd2 rest)
  | case7 c d rest hc hd w ws hws ih =>
    intro w2 hw2
    rw [show pysplit (c :: d :: rest) = (c :: w) :: ws from by
      simp [pysplit, hc, hd, hws]] at hw2
    rcases List.mem_cons.mp hw2 with rfl | hw3
    · intro e he
      rcases List.mem_cons.mp he with rfl | he2
      · exact List.mem_cons_self _ _
      · exact List.mem_cons_of_mem _
          (ih w (by rw [hws]; exact List.mem_cons_self _ _) e he2)
    · intro e he
      exact List.mem_cons_of_mem _
        (ih w2 (by rw [hws]; exact List.mem_cons_of_mem _ hw3) e he)

theorem mem_brackets {l : Str} {c : Char} (h : c ∈ brackets l) :
    c ∈ l ∧ (c = '[' ∨ c = ']') := by
  refine ⟨List.mem_of_mem_filter h, ?_⟩
  have h2 := List.of_mem_filter h
  simpa using h2

theorem bracket_mem_brackets {l : Str} {c : Char}
    (hc : (c == '[' || c == ']') = true) (h : c ∈ l) : c ∈ brackets l :=
  List.mem_filter.mpr ⟨h, hc⟩

theorem brackets_cons_open (l : Str) :
    brackets ('[' :: l) = '[' :: brackets l := by
  simp [brackets, List.filter_cons]

theorem brackets_cons_close (l : Str) :
    brackets (']' :: l) = ']' :: brackets l := by
  simp [brackets, List.filter_cons]

theorem brackets_cons_other {a : Char} (h1 : ¬(a = '[')) (h2 : ¬(a = ']'))
    (l : Str) : brackets (a :: l) = brackets l := by
  simp [brackets, List.filter_cons, beq_eq_false_iff_ne.mpr h1,
    beq_eq_false_iff_ne.mpr h2]

theorem bform_removeBracketsF :
    ∀ (f : Nat) {l : Str}, l.length ≤ f → '\n' ∉ l →
      bform (removeBracketsF f l) := by
  intro f
  induction f with
  | zero =>
    intro l h _
    rw [List.length_eq_zero.mp (Nat.le_zero.mp h)]
    exact ⟨0, 0, rfl⟩
  | succ f ih =>
    intro l h hnl
    cases l with
    | nil => exact ⟨0, 0, rfl⟩
    | cons a rest =>
      have hrest_len : rest.length ≤ f := Nat.le_of_succ_le_succ (by simpa using h)
      have hnl_rest : '\n' ∉ rest := fun hm => hnl (List.mem_cons_of_mem _ hm)
      simp only [removeBracketsF]
      by_cases ha : a = '['
      · rw [if_pos ha]
        cases hfc : findClose rest with
        | some rest2 =>
          have hlen2 : rest2.length ≤ f :=
            Nat.le_of_lt (Nat.lt_of_lt_of_le (findClose_length hfc) hrest_len)
          exact ih hlen2 (fun hm => hnl_rest (findClose_subset hfc hm))
        | none =>
          have hnc : ']' ∉ rest := no_close_of_findClose_none hfc hnl_rest
          have hnc2 : ']' ∉ removeBracketsF f rest :=
            fun hm => hnc (mem_removeBracketsF f hm)
          have hall : ∀ y ∈ brackets (removeBracketsF f rest), y = '[' := by
            intro y hy
            rcases mem_brackets hy with ⟨hyl, hy2 | hy2⟩
            · exact hy2
            · exact absurd (hy2 ▸ hyl) hnc2
          obtain ⟨n, hrep⟩ : ∃ n,
              brackets (removeBracketsF f rest) = List.replicate n '[' :=
            ⟨_, List.eq_replicate_of_mem hall⟩
          refine ⟨0, n + 1, ?_⟩
          rw [brackets_cons_open, hrep]
          simp [List.replicate_succ]
      · rw [if_neg ha]
        rcases ih hrest_len hnl_rest with ⟨x, y, hxy⟩
        by_cases hb : a = ']'
        · subst hb
          refine ⟨x + 1, y, ?_⟩
          rw [brackets_cons_close, hxy]
          simp [List.replicate_succ]
        · refine ⟨x, y, ?_⟩
          rw [brackets_cons_other ha hb, hxy]

theorem removeBracketsF_eq_self :
    ∀ (f : Nat) {l : Str}, l.length ≤ f → bform l → removeBracketsF f l = l := by
  intro f
  induction f with
  | zero =>
    intro l h _
    rw [List.length_eq_zero.mp (Nat.le_zero.mp h)]
    rfl
  | succ f ih =>
    intro l h hb
    cases l with
    | nil => rfl
    | cons a rest =>
      have hrest_len : rest.length ≤ f := Nat.le_of_succ_le_succ (by simpa using h)
      simp only [removeBracketsF]
      by_cases ha : a = '['
      · subst ha
        rcases hb with ⟨x, y, hxy⟩
        rw [brackets_cons_open] at hxy
        cases x with
        | succ x2 =>
          simp only [List.replicate_succ, List.cons_append, List.cons.injEq] at hxy
          exact absurd hxy.1 (by decide)
        | zero =>
          simp only [List.replicate, List.nil_append] at hxy
          cases y with
          | zero => simp at hxy
          | succ y2 =>
            simp only [List.replicate_succ, List.cons.injEq] at hxy
            have hrest : brackets rest = List.replicate y2 '[' := hxy.2
            have hnc : ']' ∉ rest := by
              intro hm
              have hm2 : ']' ∈ brackets rest :=
                bracket_mem_brackets (by decide) hm
              rw [hrest] at hm2
              exact absurd (List.eq_of_mem_replicate hm2) (by decide)
            rw [findClose_none_of_no_close hnc]
            rw [ih hrest_len ⟨0, y2, by simp [hrest]⟩]
            simp
      · rw [if_neg ha]
        have hbrest : bform rest := by
          rcases hb with ⟨x, y, hxy⟩
          by_cases hb2 : a = ']'
          · subst hb2
            rw [brackets_cons_close] at hxy
            cases x with
            | zero =>
              simp only [List.replicate, List.nil_append] at hxy
              cases y with
              | zero => simp at hxy
              | succ y2 =>
                simp only [List.replicate_succ, List.cons.injEq] at hxy
                exact absurd hxy.1 (by decide)
            | succ x2 =>
              simp only [List.replicate_succ, List.cons_append, List.cons.injEq] at hxy
              exact ⟨x2, y, hxy.2⟩
          · rw [brackets_cons_other ha hb2] at hxy
            exact ⟨x, y, hxy⟩
        rw [ih hrest_len hbrest]

theorem star_not_mem_clean_text (s : Str) : '*' ∉ clean_text s := by
  unfold clean_text
  by_cases hs : s = []
  · rw [if_pos hs]
    simp
  · rw [if_neg hs]
    intro hmem
    have h1 := mem_pystrip hmem
    rcases mem_joinSp h1 with he | ⟨w, hw, hc⟩
    · exact absurd he (by decide)
    · have h2 := pysplit_mem_subset _ w hw '*' hc
      simp only [removeBrackets] at h2
      have h3 := mem_removeBracketsF _ h2
      simp only [replaceAll] at h3
      exact star_not_mem_replaceAllF _ (le_refl _) h3

theorem pysplit_word :
    ∀ {w : Str}, w ≠ [] → (∀ c ∈ w, isPySpace c = false) → pysplit w = [w] := by
  intro w
  induction w with
  | nil => intro h _; exact absurd rfl h
  | cons c rest ih =>
    intro _ hgood
    cases rest with
    | nil => simp [pysplit, hgood c (List.mem_cons_self _ _)]
    | cons d rest2 =>
      have hc := hgood c (List.mem_cons_self _ _)
      have hd := hgood d (List.mem_cons_of_mem _ (List.mem_cons_self _ _))
      simp only [pysplit]
      rw [hc, hd]
      simp only [Bool.false_eq_true, if_false]
      rw [ih (by simp) (fun e he => hgood e (List.mem_cons_of_mem _ he))]

theorem pysplit_word_append :
    ∀ {w : Str} (l : Str), w ≠ [] → (∀ c ∈ w, isPySpace c = false) →
      pysplit (w ++ ' ' :: l) = w :: pysplit l := by
  intro w
  induction w with
  | nil => intro l h _; exact absurd rfl h
  | cons c rest ih =>
    intro l _ hgood
    cases rest with
    | nil =>
      have hc := hgood c (List.mem_cons_self _ _)
      simp only [List.cons_append, List.nil_append, pysplit]
      rw [hc]
      simp only [Bool.false_eq_true, if_false]
      rw [show isPySpace ' ' = true from by decide]
      simp
    | cons d rest2 =>
      have hc := hgood c (List.mem_cons_self _ _)
      have hd := hgood d (List.mem_cons_of_mem _ (List.mem_cons_self _ _))
      have ih2 := ih l (by simp) (fun e he => hgood e (List.mem_cons_of_mem _ he))
      simp only [List.cons_append] at ih2
      simp only [List.cons_append, pysplit]
      rw [hc, hd]
      simp only [Bool.false_eq_true, if_false, List.append_eq]
      rw [ih2]

theorem pysplit_joinSp :
    ∀ {ws : List Str}, (∀ w ∈ ws, w ≠ [] ∧ ∀ c ∈ w, isPySpace c = false) →
      pysplit (joinSp ws) = ws := by
  intro ws
  induction ws with
  | nil => intro _; rfl
  | cons w ws ih =>
    intro hgood
    have hw := hgood w (List.mem_cons_self _ _)
    cases ws with
    | nil =>
      rw [show joinSp [w] = w from rfl]
      exact pysplit_word hw.1 hw.2
    | cons v ws2 =>
      rw [show joinSp (w :: v :: ws2) = w ++ ' ' :: joinSp (v :: ws2) from rfl]
      rw [pysplit_word_append _ hw.1 hw.2]
      rw [ih (fun w2 hw2 => hgood w2 (List.mem_cons_of_mem _ hw2))]

theorem joinSp_concat :
    ∀ {ws : List Str}, ws ≠ [] →
      (∀ w ∈ ws, w ≠ [] ∧ ∀ c ∈ w, isPySpace c = false) →
      ∃ m ch, joinSp ws = m ++ [ch] ∧ isPySpace ch = false := by
  intro ws
  induction ws with
  | nil => intro h _; exact absurd rfl h
  | cons w ws ih =>
    intro _ hgood
    cases ws with
    | nil =>
      have hw := hgood w (List.mem_cons_self _ _)
      refine ⟨w.dropLast, w.getLast hw.1, ?_, ?_⟩
      · rw [show joinSp [w] = w from rfl]
        exact (List.dropLast_append_getLast hw.1).symm
      · exact hw.2 _ (List.getLast_mem hw.1)
    | cons v ws2 =>
      rcases ih (by simp) (fun w2 hw2 => hgood w2 (List.mem_cons_of_mem _ hw2))
        with ⟨m, ch, hm, hch⟩
      refine ⟨w ++ ' ' :: m, ch, ?_, hch⟩
      rw [show joinSp (w :: v :: ws2) = w ++ ' ' :: joinSp (v :: ws2) from rfl, hm]
      simp

theorem pystrip_ends {c ch : Char} {m1 m2 : Str} (hc : isPySpace c = false)
    (hch : isPySpace ch = false) (heq : c :: m1 = m2 ++ [ch]) :
    pystrip (c :: m1) = c :: m1 := by
  unfold pystrip
  rw [List.dropWhile_cons, if_neg (by simp [hc])]
  rw [heq, List.reverse_append]
  simp only [List.reverse_cons, List.reverse_nil, List.nil_append,
    List.singleton_append]
  rw [List.dropWhile_cons, if_neg (by simp [hch])]
  simp

theorem pystrip_joinSp :
    ∀ {ws : List Str}, (∀ w ∈ ws, w ≠ [] ∧ ∀ c ∈ w, isPySpace c = false) →
      pystrip (joinSp ws) = joinSp ws := by
  intro ws hgood
  cases ws with
  | nil => rfl
  | cons w ws2 =>
    rcases joinSp_concat (by simp) hgood with ⟨m, ch, hm, hch⟩
    have hw := hgood w (List.mem_cons_self _ _)
    obtain ⟨c, w2, hwc⟩ : ∃ c w2, w = c :: w2 := by
      cases w with
      | nil => exact absurd rfl hw.1
      | cons c w2 => exact ⟨c, w2, rfl⟩
    have hc : isPySpace c = false :=
      hw.2 c (by rw [hwc]; exact List.mem_cons_self _ _)
    have hhead : ∃ X, joinSp (w :: ws2) = c :: X := by
      cases ws2 with
      | nil => exact ⟨w2, by rw [show joinSp [w] = w from rfl, hwc]⟩
      | cons v ws3 =>
        refine ⟨w2 ++ ' ' :: joinSp (v :: ws3), ?_⟩
        rw [show joinSp (w :: v :: ws3) = w ++ ' ' :: joinSp (v :: ws3) from rfl,
          hwc]
        rfl
    rcases hhead with ⟨X, hX⟩
    rw [hX]
    rw [hX] at hm
    exact pystrip_ends hc hch hm

/-- C8 (amended): for every input containing no newline character,
`clean_text` is idempotent: a second application returns the cleaned
string unchanged.  (The restriction is forced: across a newline the
bracket regex cannot match, but the whitespace collapse of the first
pass replaces the newline by a space, letting a second pass remove
more — see the counterexample.) -/
theorem c8_clean_text_idempotent_no_newline (s : Str) (h : '\n' ∉ s) :
    clean_text (clean_text s) = clean_text s := by
  by_cases hs : s = []
  · rw [hs]
    decide
  · by_cases ht : clean_text s = []
    · rw [ht]
      decide
    · have hcs : clean_text s =
          pystrip (joinSp (pysplit (removeBrackets (replaceAll ['*'] s)))) := by
        unfold clean_text
        rw [if_neg hs]
      have hgood := pysplit_good (removeBrackets (replaceAll ['*'] s))
      have hT : clean_text s =
          joinSp (pysplit (removeBrackets (replaceAll ['*'] s))) := by
        rw [hcs]
        exact pystrip_joinSp hgood
      have houter : clean_text (clean_text s) =
          pystrip (joinSp (pysplit (removeBrackets
            (replaceAll ['*'] (clean_text s))))) := by
        rw [show clean_text (clean_text s) = if clean_text s = [] then []
            else pystrip (joinSp (pysplit (removeBrackets
              (replaceAll ['*'] (clean_text s))))) from rfl, if_neg ht]
      rw [houter]
      have hstarA : replaceAll ['*'] (clean_text s) = clean_text s := by
        simp only [replaceAll]
        exact replaceAllF_head_not_mem '*' ['*'] rfl _
          (star_not_mem_clean_text s)
      rw [hstarA]
      have hnl_u : '\n' ∉ replaceAll ['*'] s := by
        intro hm
        simp only [replaceAll] at hm
        exact h (mem_replaceAllF _ hm)
      have hbx : bform (removeBrackets (replaceAll ['*'] s)) := by
        simp only [removeBrackets]
        exact bform_removeBracketsF _ (le_refl _) hnl_u
      have hbt : bform (clean_text s) := by
        rcases hbx with ⟨a, b, hab⟩
        refine ⟨a, b, ?_⟩
        rw [hcs, brackets_pystrip, brackets_joinSp, brackets_join_pysplit]
        exact hab
      have hBt : removeBrackets (clean_text s) = clean_text s := by
        simp only [removeBrackets]
        exact removeBracketsF_eq_self _ (le_refl _) hbt
      rw [hBt]
      rw [hT, pysplit_joinSp hgood]
      exact pystrip_joinSp hgood

/-- C8 witness: idempotence applied to a concrete newline-free string
with surrounding whitespace, a bracketed aside and emphasis markers. -/
theorem c8_idempotent_witness :
    '\n' ∉ "  a [b] *c*  ".toList ∧
    clean_text (clean_text "  a [b] *c*  ".toList) =
      clean_text "  a [b] *c*  ".toList :=
  ⟨by decide, c8_clean_text_idempotent_no_newline _ (by decide)⟩

end VideoAnalysis
